import Mathlib

/-!
Verification of the primer-rendering code base: a shallow embedding of
`src/primer_ops/client_repo.py` and `src/primer_ops/render_docx.py` in Lean,
with theorems settling the frozen specification claims.

Python strings are modelled as Lean `String` (lists of characters); Python
lists as Lean `List`; `None`-able values as `Option`; the file system, where
needed, as an explicit map from paths to contents.
-/

namespace PrimerOps

/-! ### client_repo.py -/

/-- The character class of `_INVALID_FOLDER_CHARS_RE`, i.e. the characters
removed from a folder name: `< > : " / \ | ? *`. -/
def _INVALID_FOLDER_CHARS : List Char := ['<', '>', ':', '\"', '/', '\\', '|', '?', '*']

def _MAX_FOLDER_NAME_LEN : Nat := 80

/-- Python `str.isspace`-style whitespace, as used by `str.split()` with no
arguments (space, tab, newline, carriage return, vertical tab, form feed). -/
def pyIsSpace (c : Char) : Bool :=
  c = ' ' || c = '\t' || c = '\n' || c = '\r' || c = '\x0b' || c = '\x0c'

/-- Helper for `pyWords`: accumulates the current word (in reverse). -/
def pyWordsAux : List Char → List Char → List (List Char)
  | [], acc => if acc = [] then [] else [acc.reverse]
  | c :: cs, acc =>
    if pyIsSpace c then
      if acc = [] then pyWordsAux cs [] else acc.reverse :: pyWordsAux cs []
    else pyWordsAux cs (c :: acc)

/-- Python `s.split()` (no argument): split on runs of whitespace, dropping
empty pieces and leading/trailing whitespace. -/
def pyWords (l : List Char) : List (List Char) := pyWordsAux l []

/-- Python `s.rstrip(chars)`: drop trailing characters belonging to `chars`. -/
def pyRstrip (l : List Char) (chars : List Char) : List Char :=
  (l.reverse.dropWhile (fun c => chars.contains c)).reverse

/-- Source `sanitize_folder_name` from `client_repo.py`:
remove the invalid characters, collapse whitespace runs
(`" ".join(cleaned.split())`), strip trailing spaces/periods, and truncate to
at most 80 characters (re-stripping after truncation). The `name is None`
guard of the source is outside this model: the argument is always a string. -/
def sanitize_folder_name (name : String) : String :=
  let cleaned := name.toList.filter (fun c => !(_INVALID_FOLDER_CHARS.contains c))
  let cleaned := List.intercalate [' '] (pyWords cleaned)
  let cleaned := pyRstrip cleaned [' ', '.']
  let cleaned :=
    if _MAX_FOLDER_NAME_LEN ≠ 0 ∧ cleaned.length > _MAX_FOLDER_NAME_LEN then
      pyRstrip (cleaned.take _MAX_FOLDER_NAME_LEN) [' ', '.']
    else cleaned
  String.mk cleaned

/-- The folder-name computation of `ensure_client_repo`:
`sanitize_folder_name(company_name) or "unknown_company"` (Python `or` takes
the fallback exactly when the sanitized string is empty/falsy). -/
def ensure_client_repo_folder_name (company_name : String) : String :=
  let s := sanitize_folder_name company_name
  if s = "" then "unknown_company" else s

/-! ### render_docx.py : atomic save (`_save_docx_atomic`) -/

/-- A file system: a map from path strings to file contents (`none` = the
path does not exist). -/
def FS : Type := String → Option String

/-- Writing a file: the path now holds `content`; nothing else changes. -/
def FS.write (fs : FS) (p : String) (content : String) : FS :=
  fun q => if q = p then some content else fs q

/-- Source `os.replace` / `Path.replace`: atomically rename `src` over `dst`. -/
def FS.rename (fs : FS) (src dst : String) : FS :=
  fun q => if q = dst then fs src else if q = src then none else fs q

/-- The temporary path of `_save_docx_atomic`:
`path.with_suffix(path.suffix + ".tmp")`, which (the old suffix being removed
and re-added in front of `".tmp"`) appends `".tmp"` to the path. -/
def tmp_path (path : String) : String := path ++ ".tmp"

/-- Source `_save_docx_atomic`: serialize the document to the sibling temporary
path, then rename it over the destination. `doc` is the fully serialized
document content. -/
def _save_docx_atomic (doc : String) (path : String) (fs : FS) : FS :=
  let tmp := tmp_path path
  let fs1 := fs.write tmp doc
  fs1.rename tmp path

/-! ### Helper lemmas about the sanitizer -/

theorem length_mk (l : List Char) : (String.mk l).length = l.length := rfl

theorem toList_mk (l : List Char) : (String.mk l).toList = l := rfl

theorem length_dropWhile_le' {α : Type} (p : α → Bool) (l : List α) :
    (l.dropWhile p).length ≤ l.length := by
  induction l with
  | nil => simp
  | cons x xs ih =>
    rw [List.dropWhile_cons]
    split
    · exact Nat.le_succ_of_le ih
    · exact Nat.le_refl _

theorem pyRstrip_length_le (l chars : List Char) :
    (pyRstrip l chars).length ≤ l.length := by
  unfold pyRstrip
  rw [List.length_reverse]
  calc (l.reverse.dropWhile fun c => chars.contains c).length
      ≤ l.reverse.length := length_dropWhile_le' _ _
    _ = l.length := List.length_reverse l

theorem head?_dropWhile_not {α : Type} {p : α → Bool} {l : List α} {a : α}
    (h : (l.dropWhile p).head? = some a) : p a = false := by
  induction l with
  | nil => simp at h
  | cons x xs ih =>
    rw [List.dropWhile_cons] at h
    split at h
    · exact ih h
    · rename_i hx
      simp at h
      subst h
      simpa using hx

theorem pyRstrip_getLast?_not {l chars : List Char} {c : Char}
    (h : (pyRstrip l chars).getLast? = some c) : chars.contains c = false := by
  unfold pyRstrip at h
  rw [List.getLast?_reverse] at h
  exact head?_dropWhile_not h

theorem pyRstrip_subset (l chars : List Char) : pyRstrip l chars ⊆ l := by
  intro c hc
  unfold pyRstrip at hc
  rw [List.mem_reverse] at hc
  have := (List.dropWhile_sublist (l := l.reverse) (fun c => chars.contains c)).subset hc
  rwa [List.mem_reverse] at this

theorem pyWordsAux_mem {l acc : List Char} {w : List Char} (hw : w ∈ pyWordsAux l acc) :
    ∀ c ∈ w, c ∈ l ∨ c ∈ acc := by
  induction l generalizing acc with
  | nil =>
    unfold pyWordsAux at hw
    split at hw
    · simp at hw
    · simp at hw
      subst hw
      intro c hc
      right
      simpa using hc
  | cons x xs ih =>
    unfold pyWordsAux at hw
    split at hw
    · split at hw
      · intro c hc
        rcases ih hw c hc with h | h
        · exact Or.inl (List.mem_cons_of_mem _ h)
        · simp at h
      · rcases List.mem_cons.mp hw with h | h
        · subst h
          intro c hc
          right
          simpa using hc
        · intro c hc
          rcases ih h c hc with h' | h'
          · exact Or.inl (List.mem_cons_of_mem _ h')
          · simp at h'
    · intro c hc
      rcases ih hw c hc with h | h
      · exact Or.inl (List.mem_cons_of_mem _ h)
      · rcases List.mem_cons.mp h with h' | h'
        · exact Or.inl (h' ▸ List.mem_cons_self _ _)
        · exact Or.inr h'

theorem intercalate_space_cons_cons (w w' : List Char) (ws : List (List Char)) :
    List.intercalate [' '] (w :: w' :: ws) = w ++ [' '] ++ List.intercalate [' '] (w' :: ws) := by
  simp [List.intercalate, List.intersperse]

theorem intercalate_space_mem {ws : List (List Char)} {c : Char}
    (hc : c ∈ List.intercalate [' '] ws) : c = ' ' ∨ ∃ w ∈ ws, c ∈ w := by
  induction ws with
  | nil => simp [List.intercalate] at hc
  | cons w ws ih =>
    cases ws with
    | nil =>
      simp [List.intercalate] at hc
      exact Or.inr ⟨w, List.mem_cons_self _ _, hc⟩
    | cons w' ws' =>
      rw [intercalate_space_cons_cons] at hc
      rcases List.mem_append.mp hc with h | h
      · rcases List.mem_append.mp h with h' | h'
        · exact Or.inr ⟨w, List.mem_cons_self _ _, h'⟩
        · simp at h'
          exact Or.inl h'
      · rcases ih h with h' | h'
        · exact Or.inl h'
        · obtain ⟨u, hu, hcu⟩ := h'
          exact Or.inr ⟨u, List.mem_cons_of_mem _ hu, hcu⟩

/-- Every character of the sanitized name comes from the (invalid-character
filtered) input or is a single space separator. -/
theorem sanitize_char_provenance {name : String} {c : Char}
    (hc : c ∈ (sanitize_folder_name name).toList) :
    c = ' ' ∨ (c ∈ name.toList ∧ _INVALID_FOLDER_CHARS.contains c = false) := by
  unfold sanitize_folder_name at hc
  rw [toList_mk] at hc
  have step : ∀ d : Char,
      d ∈ List.intercalate [' ']
        (pyWords (name.toList.filter (fun c => !(_INVALID_FOLDER_CHARS.contains c)))) →
      d = ' ' ∨ (d ∈ name.toList ∧ _INVALID_FOLDER_CHARS.contains d = false) := by
    intro d hd
    rcases intercalate_space_mem hd with h | h
    · exact Or.inl h
    · obtain ⟨w, hw, hdw⟩ := h
      rcases pyWordsAux_mem hw d hdw with h' | h'
      · rcases List.mem_filter.mp h' with ⟨hmem, hfil⟩
        exact Or.inr ⟨hmem, by simpa using hfil⟩
      · simp at h'
  split at hc
  · exact step c (pyRstrip_subset _ _ (List.take_subset _ _ (pyRstrip_subset _ _ hc)))
  · exact step c (pyRstrip_subset _ _ hc)

theorem sanitize_no_trailing {name : String} {c : Char}
    (h : (sanitize_folder_name name).toList.getLast? = some c) :
    ¬(c = ' ' ∨ c = '.') := by
  intro hor
  unfold sanitize_folder_name at h
  rw [toList_mk] at h
  have hcontains : ([' ', '.'] : List Char).contains c = true := by
    rcases hor with h' | h' <;> simp [h']
  split at h
  all_goals
    rw [pyRstrip_getLast?_not h] at hcontains
    exact Bool.false_ne_true hcontains

theorem sanitize_length_le (name : String) : (sanitize_folder_name name).length ≤ 80 := by
  unfold sanitize_folder_name
  rw [length_mk]
  split
  · calc (pyRstrip (List.take _MAX_FOLDER_NAME_LEN _) [' ', '.']).length
        ≤ (List.take _MAX_FOLDER_NAME_LEN _).length := pyRstrip_length_le _ _
      _ ≤ _MAX_FOLDER_NAME_LEN := by
          rw [List.length_take]
          exact Nat.min_le_left _ _
  · rename_i hcond
    rw [not_and_or] at hcond
    rcases hcond with h | h
    · simp [_MAX_FOLDER_NAME_LEN] at h
    · simp only [_MAX_FOLDER_NAME_LEN, gt_iff_lt, not_lt] at h
      exact h

/-- C6: `sanitize_folder_name` removes the illegal characters, collapses
whitespace, trims trailing space/period, and truncates to at most 80
characters; the four spec examples evaluate as stated, and an empty
sanitization result makes `ensure_client_repo` fall back to
`unknown_company`. -/
theorem C6_sanitize_folder_name :
    sanitize_folder_name "Acme<>:\"/\\|?*  Corp" = "Acme Corp" ∧
    sanitize_folder_name "Foo . " = "Foo" ∧
    sanitize_folder_name "Bar..." = "Bar" ∧
    sanitize_folder_name "  Mega   Corp  " = "Mega Corp" ∧
    (∀ name : String, (sanitize_folder_name name).length ≤ 80) ∧
    (∀ (name : String) (c : Char), c ∈ (sanitize_folder_name name).toList →
      c = ' ' ∨ (c ∈ name.toList ∧ _INVALID_FOLDER_CHARS.contains c = false)) ∧
    (∀ (name : String) (c : Char),
      (sanitize_folder_name name).toList.getLast? = some c → ¬(c = ' ' ∨ c = '.')) ∧
    (∀ name : String, sanitize_folder_name name = "" →
      ensure_client_repo_folder_name name = "unknown_company") :=
  ⟨rfl, rfl, rfl, rfl,
   sanitize_length_le,
   fun _ _ h => sanitize_char_provenance h,
   fun _ _ h => sanitize_no_trailing h,
   fun name h => by
     unfold ensure_client_repo_folder_name
     simp [h]⟩

/-- Witness for C6 at concrete inputs: an all-illegal name sanitizes to the
empty string and the call site substitutes `unknown_company`. -/
theorem C6_sanitize_folder_name_witness :
    ensure_client_repo_folder_name "<>:" = "unknown_company" :=
  C6_sanitize_folder_name.2.2.2.2.2.2.2 "<>:" rfl

/-- C7: the save is atomic — the temporary path differs from the
destination, a write to the temporary path (even of partial content) leaves
the destination's prior content untouched, and after the final rename the
destination holds exactly the complete document. -/
theorem C7_save_docx_atomic (fs : FS) (doc path partialContent : String) :
    tmp_path path ≠ path ∧
    FS.write fs (tmp_path path) partialContent path = fs path ∧
    _save_docx_atomic doc path fs path = some doc := by
  have hne : tmp_path path ≠ path := by
    intro h
    have hlen : (tmp_path path).length = path.length := congrArg String.length h
    have h4 : (".tmp" : String).length = 4 := rfl
    rw [tmp_path, String.length_append, h4] at hlen
    omega
  refine ⟨hne, ?_, ?_⟩
  · unfold FS.write
    rw [if_neg (Ne.symm hne)]
  · unfold _save_docx_atomic FS.rename FS.write
    simp

/-! ### render_docx.py : inline tokens and runs -/

/-- One child of an inline token, as dispatched on by `_inline_runs`
(the child's `type` string together with the `content` field it reads). -/
inductive Inline where
  | strong_open : Inline
  | strong_close : Inline
  | em_open : Inline
  | em_close : Inline
  | code_inline (content : String) : Inline
  | text (content : String) : Inline
  | softbreak : Inline
  | hardbreak : Inline
  | image (content : String) : Inline
  | link_open : Inline
  | link_close : Inline
  | unrecognized : Inline
deriving DecidableEq

/-- A markdown token: its `type`, `tag`, raw `content`, and (for `inline`
tokens) its children. -/
structure Token where
  type : String
  tag : String
  content : String
  children : List Inline
deriving DecidableEq

/-- A run emitted by the inline extractor: either a forced line-break marker
(`\x7b"break": True\x7d` in the source) or a text span with its style flags
(`text`/`bold`/`italic`/`code` keys). -/
inductive Run where
  | brk : Run
  | text (text : String) (bold : Bool) (italic : Bool) (code : Bool) : Run
deriving DecidableEq

/-- The image placeholder text of `_inline_runs`:
`TODO: image omitted` or `TODO: image omitted (<alt text>)`. -/
def image_placeholder (alt_text : String) : String :=
  if alt_text = "" then "TODO: image omitted"
  else "TODO: image omitted (" ++ alt_text ++ ")"

/-- Source `_append_run`: append `text` to the run list, merging it into the
previous run when that run is a non-break run with the identical
(bold, italic, code) combination; empty text is dropped. The accumulator is
kept most-recent-run-first (the reverse of the Python list, whose mutation
point `runs[-1]` is the tail). -/
def _append_run (runs : List Run) (text : String) (bold italic code : Bool) : List Run :=
  if text = "" then runs
  else
    match runs with
    | Run.text t b i c :: rest =>
      if b = bold ∧ i = italic ∧ c = code then Run.text (t ++ text) b i c :: rest
      else Run.text text bold italic code :: runs
    | _ => Run.text text bold italic code :: runs

/-- The child-walking loop of `_inline_runs`, carrying the `bold`/`italic`
flags and the accumulated runs (most recent first). -/
def _inline_runs_go : List Inline → Bool → Bool → List Run → List Run
  | [], _, _, runs => runs
  | child :: rest, bold, italic, runs =>
    match child with
    | .strong_open => _inline_runs_go rest true italic runs
    | .strong_close => _inline_runs_go rest false italic runs
    | .em_open => _inline_runs_go rest bold true runs
    | .em_close => _inline_runs_go rest bold false runs
    | .code_inline content =>
        _inline_runs_go rest bold italic (_append_run runs content false false true)
    | .text content =>
        _inline_runs_go rest bold italic (_append_run runs content bold italic false)
    | .softbreak =>
        _inline_runs_go rest bold italic (_append_run runs " " bold italic false)
    | .hardbreak => _inline_runs_go rest bold italic (Run.brk :: runs)
    | .image content =>
        _inline_runs_go rest bold italic
          (_append_run runs (image_placeholder content) bold italic false)
    | .link_open => _inline_runs_go rest bold italic runs
    | .link_close => _inline_runs_go rest bold italic runs
    | .unrecognized => _inline_runs_go rest bold italic runs

/-- Source `_inline_runs`: an absent inline token or one without children yields no
runs; otherwise walk the children. The result is in Python list order
(oldest run first). -/
def _inline_runs (inline_token : Option Token) : List Run :=
  match inline_token with
  | none => []
  | some tok =>
    if tok.children = [] then []
    else (_inline_runs_go tok.children false false []).reverse

/-- Adjacency admissibility for C2: two neighbouring runs must not be two
text (non-break) runs sharing the identical (bold, italic, code)
combination. -/
def adjacentOK : Run → Run → Prop
  | Run.text _ b1 i1 c1, Run.text _ b2 i2 c2 => ¬(b1 = b2 ∧ i1 = i2 ∧ c1 = c2)
  | _, _ => True

def runText : Run → String
  | .brk => ""
  | .text t _ _ _ => t

def runsText : List Run → String
  | [] => ""
  | r :: rs => runText r ++ runsText rs

/-- The text contribution of one inline child, as rendered by
`_inline_runs`. -/
def childText : Inline → String
  | .strong_open => ""
  | .strong_close => ""
  | .em_open => ""
  | .em_close => ""
  | .code_inline content => content
  | .text content => content
  | .softbreak => " "
  | .hardbreak => ""
  | .image content => image_placeholder content
  | .link_open => ""
  | .link_close => ""
  | .unrecognized => ""

def childrenText : List Inline → String
  | [] => ""
  | c :: cs => childText c ++ childrenText cs

def isBrk : Run → Bool
  | .brk => true
  | _ => false

def isHardbreak : Inline → Bool
  | .hardbreak => true
  | _ => false

/-! Helper lemmas for C2. -/

theorem stringAppend_assoc (a b c : String) : a ++ b ++ c = a ++ (b ++ c) := by
  apply String.ext
  simp

theorem stringAppend_empty (a : String) : a ++ "" = a := by
  apply String.ext
  simp

theorem adjacentOK_of_styleEq {t t' : String} {b i c : Bool} {r : Run}
    (h : adjacentOK (Run.text t b i c) r) : adjacentOK (Run.text t' b i c) r := by
  cases r <;> simpa [adjacentOK] using h

theorem chain'_append_run {runs : List Run} (text : String) (bold italic code : Bool)
    (h : List.Chain' adjacentOK runs) :
    List.Chain' adjacentOK (_append_run runs text bold italic code) := by
  unfold _append_run
  by_cases htext : text = ""
  · rw [if_pos htext]
    exact h
  · rw [if_neg htext]
    cases runs with
    | nil => simp
    | cons r0 rest =>
      cases r0 with
      | brk =>
        show List.Chain' adjacentOK (Run.text text bold italic code :: Run.brk :: rest)
        rw [List.chain'_cons]
        exact ⟨trivial, h⟩
      | text t b i c =>
        show List.Chain' adjacentOK
          (if b = bold ∧ i = italic ∧ c = code then Run.text (t ++ text) b i c :: rest
           else Run.text text bold italic code :: Run.text t b i c :: rest)
        by_cases hsty : b = bold ∧ i = italic ∧ c = code
        · rw [if_pos hsty]
          cases rest with
          | nil => simp
          | cons r1 rs =>
            rw [List.chain'_cons] at h ⊢
            exact ⟨adjacentOK_of_styleEq h.1, h.2⟩
        · rw [if_neg hsty]
          rw [List.chain'_cons]
          refine ⟨?_, h⟩
          simp only [adjacentOK]
          intro hc
          exact hsty ⟨hc.1.symm, hc.2.1.symm, hc.2.2.symm⟩

theorem chain'_inline_runs_go (children : List Inline) (bold italic : Bool)
    (runs : List Run) (h : List.Chain' adjacentOK runs) :
    List.Chain' adjacentOK (_inline_runs_go children bold italic runs) := by
  induction children generalizing bold italic runs with
  | nil => exact h
  | cons child rest ih =>
    cases child with
    | strong_open => exact ih _ _ _ h
    | strong_close => exact ih _ _ _ h
    | em_open => exact ih _ _ _ h
    | em_close => exact ih _ _ _ h
    | code_inline content => exact ih _ _ _ (chain'_append_run _ _ _ _ h)
    | text content => exact ih _ _ _ (chain'_append_run _ _ _ _ h)
    | softbreak => exact ih _ _ _ (chain'_append_run _ _ _ _ h)
    | hardbreak =>
      apply ih
      cases runs with
      | nil => simp
      | cons r0 rest' =>
        rw [List.chain'_cons]
        exact ⟨trivial, h⟩
    | image content => exact ih _ _ _ (chain'_append_run _ _ _ _ h)
    | link_open => exact ih _ _ _ h
    | link_close => exact ih _ _ _ h
    | unrecognized => exact ih _ _ _ h

theorem adjacentOK_symm {a b : Run} (h : adjacentOK a b) : adjacentOK b a := by
  cases a with
  | brk => cases b <;> trivial
  | text t1 b1 i1 c1 =>
    cases b with
    | brk => trivial
    | text t2 b2 i2 c2 =>
      simp only [adjacentOK] at h ⊢
      intro hc
      exact h ⟨hc.1.symm, hc.2.1.symm, hc.2.2.symm⟩

theorem stringEmpty_append (a : String) : "" ++ a = a := by
  apply String.ext
  simp

theorem runsText_append (l1 l2 : List Run) :
    runsText (l1 ++ l2) = runsText l1 ++ runsText l2 := by
  induction l1 with
  | nil =>
    show runsText l2 = runsText [] ++ runsText l2
    rw [show runsText [] = "" from rfl, stringEmpty_append]
  | cons r rs ih =>
    show runText r ++ runsText (rs ++ l2) = runText r ++ runsText rs ++ runsText l2
    rw [ih, stringAppend_assoc]

theorem runsText_rev_cons (r : Run) (rs : List Run) :
    runsText (r :: rs).reverse = runsText rs.reverse ++ runText r := by
  rw [List.reverse_cons, runsText_append]
  simp only [runsText]
  rw [stringAppend_empty]

theorem runsText_append_run (runs : List Run) (text : String) (bold italic code : Bool) :
    runsText (_append_run runs text bold italic code).reverse =
      runsText runs.reverse ++ text := by
  unfold _append_run
  by_cases htext : text = ""
  · rw [if_pos htext, htext, stringAppend_empty]
  · rw [if_neg htext]
    cases runs with
    | nil =>
      show runsText [Run.text text bold italic code] = runsText List.nil.reverse ++ text
      simp only [runsText, runText, List.reverse_nil]
      rw [stringAppend_empty, stringEmpty_append]
    | cons r0 rest =>
      cases r0 with
      | brk =>
        show runsText (Run.text text bold italic code :: Run.brk :: rest).reverse =
          runsText (Run.brk :: rest).reverse ++ text
        rw [runsText_rev_cons]
        simp only [runText]
      | text t b i c =>
        show runsText
            ((if b = bold ∧ i = italic ∧ c = code then Run.text (t ++ text) b i c :: rest
              else Run.text text bold italic code ::
                Run.text t b i c :: rest)).reverse =
          runsText (Run.text t b i c :: rest).reverse ++ text
        by_cases hsty : b = bold ∧ i = italic ∧ c = code
        · rw [if_pos hsty, runsText_rev_cons, runsText_rev_cons]
          simp only [runText]
          rw [stringAppend_assoc]
        · rw [if_neg hsty, runsText_rev_cons]
          simp only [runText]

theorem countBrk_append_run (runs : List Run) (text : String) (bold italic code : Bool) :
    (_append_run runs text bold italic code).countP isBrk = runs.countP isBrk := by
  unfold _append_run
  by_cases htext : text = ""
  · rw [if_pos htext]
  · rw [if_neg htext]
    cases runs with
    | nil => rfl
    | cons r0 rest =>
      cases r0 with
      | brk =>
        show (Run.text text bold italic code :: Run.brk :: rest).countP isBrk =
          (Run.brk :: rest).countP isBrk
        simp [List.countP_cons, isBrk]
      | text t b i c =>
        show List.countP isBrk
            (if b = bold ∧ i = italic ∧ c = code then Run.text (t ++ text) b i c :: rest
             else Run.text text bold italic code :: Run.text t b i c :: rest) =
          (Run.text t b i c :: rest).countP isBrk
        by_cases hsty : b = bold ∧ i = italic ∧ c = code
        · rw [if_pos hsty]
          simp [List.countP_cons, isBrk]
        · rw [if_neg hsty]
          simp [List.countP_cons, isBrk]

theorem countP_reverse' {α : Type} (p : α → Bool) (l : List α) :
    l.reverse.countP p = l.countP p := by
  induction l with
  | nil => rfl
  | cons x xs ih =>
    rw [List.reverse_cons, List.countP_append, List.countP_cons, ih, List.countP_cons]
    simp [List.countP_cons]

theorem inline_runs_go_text (children : List Inline) (bold italic : Bool)
    (runs : List Run) :
    runsText (_inline_runs_go children bold italic runs).reverse =
      runsText runs.reverse ++ childrenText children := by
  induction children generalizing bold italic runs with
  | nil => simp [_inline_runs_go, childrenText, stringAppend_empty]
  | cons child rest ih =>
    cases child <;>
      simp only [_inline_runs_go, childrenText, childText, ih, runsText_append_run,
        runsText_rev_cons, runText, stringAppend_empty, stringEmpty_append,
        stringAppend_assoc]

theorem inline_runs_go_countBrk (children : List Inline) (bold italic : Bool)
    (runs : List Run) :
    (_inline_runs_go children bold italic runs).countP isBrk =
      runs.countP isBrk + children.countP isHardbreak := by
  induction children generalizing bold italic runs with
  | nil => simp [_inline_runs_go]
  | cons child rest ih =>
    cases child <;>
      simp [_inline_runs_go, ih, countBrk_append_run, List.countP_cons,
        isHardbreak, isBrk] <;>
      omega

theorem inline_runs_some (t : Token) :
    _inline_runs (some t) =
      if t.children = [] then []
      else (_inline_runs_go t.children false false []).reverse := rfl

/-- C2: in the run sequence the inline extractor produces, two adjacent
non-break runs never share an identical (bold, italic, code) combination
(adjacent same-style text has been concatenated into a single run); break
markers are separate runs that merge with no neighbour; no text is lost
(the concatenation of all run texts equals the children's rendered text)
and every hard break yields exactly one break run. -/
theorem C2_inline_run_merge (tok : Option Token) :
    List.Chain' adjacentOK (_inline_runs tok) ∧
    (∀ t : Token, tok = some t →
      runsText (_inline_runs tok) = childrenText t.children ∧
      (_inline_runs tok).countP isBrk = t.children.countP isHardbreak) ∧
    (tok = none → _inline_runs tok = []) := by
  refine ⟨?_, ?_, ?_⟩
  · cases tok with
    | none => simp [_inline_runs]
    | some t =>
      rw [inline_runs_some]
      by_cases hnil : t.children = []
      · rw [if_pos hnil]
        simp
      · rw [if_neg hnil, List.chain'_reverse]
        exact (chain'_inline_runs_go t.children false false [] (by simp)).imp
          (fun a b h => adjacentOK_symm h)
  · intro t ht
    subst ht
    rw [inline_runs_some]
    by_cases hnil : t.children = []
    · rw [if_pos hnil, hnil]
      exact ⟨rfl, rfl⟩
    · rw [if_neg hnil]
      constructor
      · have h := inline_runs_go_text t.children false false []
        rw [h]
        show runsText [] ++ childrenText t.children = childrenText t.children
        rw [show runsText [] = "" from rfl, stringEmpty_append]
      · rw [countP_reverse']
        have h := inline_runs_go_countBrk t.children false false []
        rw [h]
        simp
  · intro ht
    subst ht
    rfl

/-- Witness for C2 at a concrete inline token: same-style text around a hard
break stays in two separate runs, never merged across the break. -/
theorem C2_inline_run_merge_witness :
    _inline_runs (some ⟨"inline", "", "",
        [Inline.text "a", Inline.hardbreak, Inline.text "b"]⟩) =
      [Run.text "a" false false false, Run.brk, Run.text "b" false false false] ∧
    runsText (_inline_runs (some ⟨"inline", "", "",
        [Inline.text "a", Inline.hardbreak, Inline.text "b"]⟩)) = "ab" := by
  refine ⟨rfl, ?_⟩
  have h := (C2_inline_run_merge (some ⟨"inline", "", "",
      [Inline.text "a", Inline.hardbreak, Inline.text "b"]⟩)).2.1 _ rfl
  rw [h.1]
  rfl

/-! ### render_docx.py : block renderer and tables -/

/-- The scan of `_skip_to`'s while-loop: the number of leading tokens whose
type differs from `end_type`. -/
def countWhileNot : List Token → String → Nat
  | [], _ => 0
  | tok :: rest, end_type =>
    if tok.type = end_type then 0 else 1 + countWhileNot rest end_type

/-- Source `_skip_to`: starting at `start_index + 1`, advance to the first token of
type `end_type`, or to the end of the stream when none occurs. -/
def _skip_to (tokens : List Token) (start_index : Nat) (end_type : String) : Nat :=
  start_index + 1 + countWhileNot (tokens.drop (start_index + 1)) end_type

/-- Source `tokens[i + 1] if i + 1 < len(tokens) and tokens[i + 1].type == "inline"
else None`, the lookahead used for headings, paragraphs and table cells. -/
def inline_token_after (tokens : List Token) (i : Nat) : Option Token :=
  match tokens.get? (i + 1) with
  | some t => if t.type = "inline" then some t else none
  | none => none

/-- The while-loop of `_parse_table`, iterating over the suffix of the token
stream that starts at index `i` (so that the cell lookahead `tokens[i + 1]`
is the head of `rest`), with the `rows` and `row_cells` buffers. -/
def parse_table_aux : List Token → Nat → List (List (List Run)) →
    List (List Run) → List (List (List Run)) × Nat
  | [], i, rows, _ => (rows, i)
  | tok :: rest, i, rows, row_cells =>
    if tok.type = "tr_open" then parse_table_aux rest (i + 1) rows []
    else if tok.type = "th_open" ∨ tok.type = "td_open" then
      let runs :=
        match rest.head? with
        | some t => if t.type = "inline" then _inline_runs (some t) else []
        | none => []
      parse_table_aux rest (i + 1) rows (row_cells ++ [runs])
    else if tok.type = "tr_close" then
      parse_table_aux rest (i + 1) (rows ++ [row_cells]) row_cells
    else if tok.type = "table_close" then (rows, i)
    else parse_table_aux rest (i + 1) rows row_cells

/-- Source `_parse_table`: buffer the rows of the table span starting after
`start_index`; return the grid together with the index of the closing token
(or the stream length when the close is missing). -/
def _parse_table (tokens : List Token) (start_index : Nat) :
    List (List (List Run)) × Nat :=
  parse_table_aux (tokens.drop (start_index + 1)) (start_index + 1) [] []

/-- Source `max(len(row) for row in rows)` (0 for the empty grid, on which the
Python expression is never evaluated). -/
def maxRowLen (rows : List (List (List Run))) : Nat :=
  rows.foldl (fun m row => Nat.max m row.length) 0

/-- Source `_render_table`: `None` for an empty grid; otherwise the written table,
as the grid padded to the maximal row width with empty cells. -/
def _render_table (rows : List (List (List Run))) :
    Option (List (List (List Run))) :=
  if rows = [] then none
  else
    let cols := maxRowLen rows
    some (rows.map (fun row => (List.range cols).map (fun c => row.getD c [])))

/-- Source `_style_exists`: whether `doc.styles[name]` succeeds; the document's
style collection is modelled by its list of style names. -/
def _style_exists (styles : List String) (name : String) : Bool :=
  styles.contains name

/-- Source `_heading_style`: level ≤ 1 chooses Title when it exists else Heading 1;
level 2 chooses Heading 1; every other level chooses Heading 2. -/
def _heading_style (styles : List String) (level : Nat) : String :=
  if level ≤ 1 then
    if _style_exists styles "Title" then "Title" else "Heading 1"
  else if level = 2 then "Heading 1"
  else "Heading 2"

/-- Source `int(token.tag[1]) if token.tag and token.tag.startswith("h") else 1`.
The tokenizer only emits heading tags `h1`..`h6`, whose single digit this
parses. -/
def heading_level (tag : String) : Nat :=
  match tag.toList with
  | 'h' :: c :: _ => c.toNat - 48
  | _ => 1

/-- Source `_paragraph_style`: the current list marker's style inside a list item,
else Normal. -/
def _paragraph_style (list_stack : List String) (in_list_item : Nat) : String :=
  if in_list_item > 0 ∧ list_stack ≠ [] then
    if list_stack.getLast? = some "bullet" then "List Bullet" else "List Number"
  else "Normal"

/-- Source `content.rstrip("\n").splitlines()` with `_add_code_block`'s empty-block
guard (an all-empty block still yields exactly one empty line). -/
def code_lines (content : String) : List String :=
  let stripped := String.mk (pyRstrip content.toList ['\n'])
  let lines := if stripped = "" then [] else stripped.splitOn "\n"
  if lines = [] then [""] else lines

/-- One rendered block: a styled paragraph with its runs (`indent` is the
hanging list indent of `_apply_list_indent`), one line of a fenced code
block (fixed-width font), or a table grid as written by `_render_table`. -/
inductive Block where
  | para (style : String) (indent : Bool) (runs : List Run) : Block
  | codePara (style : String) (line : String) : Block
  | table (grid : List (List (List Run))) : Block
deriving DecidableEq

/-- The index update of `_render_tokens`' while-loop at index `i`: every
branch either increments the index or jumps one past a matching close
token. -/
def _next_index (tokens : List Token) (i : Nat) : Nat :=
  match tokens.get? i with
  | none => i + 1
  | some token =>
    if token.type = "bullet_list_open" then i + 1
    else if token.type = "ordered_list_open" then i + 1
    else if token.type = "bullet_list_close" ∨ token.type = "ordered_list_close" then i + 1
    else if token.type = "list_item_open" then i + 1
    else if token.type = "list_item_close" then i + 1
    else if token.type = "heading_open" then _skip_to tokens i "heading_close" + 1
    else if token.type = "paragraph_open" then _skip_to tokens i "paragraph_close" + 1
    else if token.type = "hr" then i + 1
    else if token.type = "fence" then i + 1
    else if token.type = "table_open" then (_parse_table tokens i).2 + 1
    else i + 1

theorem countWhileNot_le (l : List Token) (end_type : String) :
    countWhileNot l end_type ≤ l.length := by
  induction l with
  | nil => simp [countWhileNot]
  | cons tok rest ih =>
    unfold countWhileNot
    split
    · simp
    · simp only [List.length_cons]
      omega

theorem skip_to_gt (tokens : List Token) (i : Nat) (end_type : String) :
    i < _skip_to tokens i end_type := by
  unfold _skip_to
  omega

theorem skip_to_le (tokens : List Token) (i : Nat) (end_type : String)
    (h : i < tokens.length) : _skip_to tokens i end_type ≤ tokens.length := by
  unfold _skip_to
  have hc := countWhileNot_le (tokens.drop (i + 1)) end_type
  rw [List.length_drop] at hc
  omega

theorem parse_table_aux_snd_ge (l : List Token) (i : Nat)
    (rows : List (List (List Run))) (row_cells : List (List Run)) :
    i ≤ (parse_table_aux l i rows row_cells).2 := by
  induction l generalizing i rows row_cells with
  | nil => simp [parse_table_aux]
  | cons tok rest ih =>
    unfold parse_table_aux
    split
    · exact Nat.le_of_succ_le (ih _ _ _)
    · split
      · exact Nat.le_of_succ_le (ih _ _ _)
      · split
        · exact Nat.le_of_succ_le (ih _ _ _)
        · split
          · exact Nat.le_refl i
          · exact Nat.le_of_succ_le (ih _ _ _)

theorem parse_table_aux_snd_le (l : List Token) (i : Nat)
    (rows : List (List (List Run))) (row_cells : List (List Run)) :
    (parse_table_aux l i rows row_cells).2 ≤ i + l.length := by
  induction l generalizing i rows row_cells with
  | nil => simp [parse_table_aux]
  | cons tok rest ih =>
    unfold parse_table_aux
    split
    · exact le_trans (ih _ _ _) (by simp only [List.length_cons]; omega)
    · split
      · exact le_trans (ih _ _ _) (by simp only [List.length_cons]; omega)
      · split
        · exact le_trans (ih _ _ _) (by simp only [List.length_cons]; omega)
        · split
          · simp only [List.length_cons]
            omega
          · exact le_trans (ih _ _ _) (by simp only [List.length_cons]; omega)

theorem parse_table_snd_gt (tokens : List Token) (i : Nat) :
    i < (_parse_table tokens i).2 := by
  unfold _parse_table
  have := parse_table_aux_snd_ge (tokens.drop (i + 1)) (i + 1) [] []
  omega

theorem parse_table_snd_le (tokens : List Token) (i : Nat)
    (h : i < tokens.length) : (_parse_table tokens i).2 ≤ tokens.length := by
  unfold _parse_table
  have := parse_table_aux_snd_le (tokens.drop (i + 1)) (i + 1) [] []
  rw [List.length_drop] at this
  omega

theorem next_index_gt (tokens : List Token) (i : Nat) : i < _next_index tokens i := by
  have hs1 := skip_to_gt tokens i "heading_close"
  have hs2 := skip_to_gt tokens i "paragraph_close"
  have hp := parse_table_snd_gt tokens i
  unfold _next_index
  cases hg : tokens.get? i with
  | none =>
    dsimp only
    omega
  | some token =>
    dsimp only
    repeat' split
    all_goals omega

/-- The while-loop of `_render_tokens`: walk the token stream from index
`i` with the list-context state, emitting the blocks described by each
branch; every iteration advances the index by `_next_index`. -/
def _render_tokens_from (styles : List String) (tokens : List Token)
    (i : Nat) (list_stack : List String) (in_list_item : Nat) : List Block :=
  match hget : tokens.get? i with
  | none => []
  | some token =>
    if token.type = "bullet_list_open" then
      _render_tokens_from styles tokens (_next_index tokens i)
        (list_stack ++ ["bullet"]) in_list_item
    else if token.type = "ordered_list_open" then
      _render_tokens_from styles tokens (_next_index tokens i)
        (list_stack ++ ["ordered"]) in_list_item
    else if token.type = "bullet_list_close" ∨ token.type = "ordered_list_close" then
      _render_tokens_from styles tokens (_next_index tokens i)
        list_stack.dropLast in_list_item
    else if token.type = "list_item_open" then
      _render_tokens_from styles tokens (_next_index tokens i)
        list_stack (in_list_item + 1)
    else if token.type = "list_item_close" then
      _render_tokens_from styles tokens (_next_index tokens i)
        list_stack (in_list_item - 1)
    else if token.type = "heading_open" then
      Block.para (_heading_style styles (heading_level token.tag)) false
          (_inline_runs (inline_token_after tokens i)) ::
        _render_tokens_from styles tokens (_next_index tokens i)
          list_stack in_list_item
    else if token.type = "paragraph_open" then
      Block.para (_paragraph_style list_stack in_list_item)
          (decide (in_list_item > 0) && decide (list_stack ≠ []))
          (_inline_runs (inline_token_after tokens i)) ::
        _render_tokens_from styles tokens (_next_index tokens i)
          list_stack in_list_item
    else if token.type = "hr" then
      Block.para (_paragraph_style [] 0) false [] ::
        _render_tokens_from styles tokens (_next_index tokens i)
          list_stack in_list_item
    else if token.type = "fence" then
      (code_lines token.content).map (Block.codePara (_paragraph_style [] 0)) ++
        _render_tokens_from styles tokens (_next_index tokens i)
          list_stack in_list_item
    else if token.type = "table_open" then
      (if (_parse_table tokens i).1 = [] then []
       else
         match _render_table (_parse_table tokens i).1 with
         | some grid => [Block.table grid]
         | none => []) ++
        _render_tokens_from styles tokens (_next_index tokens i)
          list_stack in_list_item
    else
      _render_tokens_from styles tokens (_next_index tokens i)
        list_stack in_list_item
termination_by tokens.length - i
decreasing_by
  all_goals
    have hlt : i < tokens.length := by
      rcases List.get?_eq_some.mp hget with ⟨hl, _⟩
      exact hl
    have hn := next_index_gt tokens i
    omega

/-- Source `_render_tokens`: render the whole stream from index 0 with empty list
context. -/
def _render_tokens (styles : List String) (tokens : List Token) : List Block :=
  _render_tokens_from styles tokens 0 [] 0

/-! Helper lemmas about `maxRowLen`. -/

theorem foldl_max_init_le (rows : List (List (List Run))) (a : Nat) :
    a ≤ rows.foldl (fun m row => Nat.max m row.length) a := by
  induction rows generalizing a with
  | nil => exact Nat.le_refl a
  | cons r rest ih => exact le_trans (Nat.le_max_left a r.length) (ih _)

theorem le_maxRowLen_foldl (rows : List (List (List Run)))
    {row : List (List Run)} (h : row ∈ rows) :
    ∀ a : Nat, row.length ≤ rows.foldl (fun m r => Nat.max m r.length) a := by
  induction rows with
  | nil => cases h
  | cons r rest ih =>
    intro a
    rcases List.mem_cons.mp h with h' | h'
    · subst h'
      exact le_trans (Nat.le_max_right a _) (foldl_max_init_le rest _)
    · exact ih h' _

theorem foldl_max_eq_or_mem (rows : List (List (List Run))) :
    ∀ a : Nat, rows.foldl (fun m r => Nat.max m r.length) a = a ∨
      ∃ row ∈ rows, rows.foldl (fun m r => Nat.max m r.length) a = row.length := by
  induction rows with
  | nil => exact fun a => Or.inl rfl
  | cons r rest ih =>
    intro a
    rcases ih (Nat.max a r.length) with h | h
    · by_cases hle : a ≤ r.length
      · refine Or.inr ⟨r, List.mem_cons_self _ _, ?_⟩
        simp only [List.foldl_cons]
        rw [h]
        exact Nat.max_eq_right hle
      · refine Or.inl ?_
        simp only [List.foldl_cons]
        rw [h]
        exact Nat.max_eq_left (Nat.le_of_not_le hle)
    · obtain ⟨row, hm, he⟩ := h
      refine Or.inr ⟨row, List.mem_cons_of_mem _ hm, ?_⟩
      simp only [List.foldl_cons]
      exact he

theorem maxRowLen_mem {rows : List (List (List Run))} (h : rows ≠ []) :
    ∃ row ∈ rows, row.length = maxRowLen rows := by
  unfold maxRowLen
  rcases foldl_max_eq_or_mem rows 0 with h0 | h0
  · cases rows with
    | nil => exact absurd rfl h
    | cons r rest =>
      refine ⟨r, List.mem_cons_self _ _, ?_⟩
      have hle := le_maxRowLen_foldl (r :: rest) (List.mem_cons_self r rest) 0
      rw [h0] at hle
      rw [h0]
      omega
  · obtain ⟨row, hm, he⟩ := h0
    exact ⟨row, hm, he.symm⟩

/-- C3: for every non-empty parsed table grid, `_render_table` succeeds and
the written table is rectangular — its row count equals the grid's, every
written row has exactly the maximal source-row width (the column count),
every cell holds the corresponding source cell's runs, and positions past a
short source row hold an empty run sequence; the empty grid renders
nothing. Totality of `_render_table` (no exception on ragged grids) is
inherent to the definition. -/
theorem C3_table_rectangular (rows : List (List (List Run))) (h : rows ≠ []) :
    ∃ grid, _render_table rows = some grid ∧
      grid.length = rows.length ∧
      (∀ row ∈ grid, row.length = maxRowLen rows) ∧
      (∀ r ∈ rows, r.length ≤ maxRowLen rows) ∧
      (∃ r ∈ rows, r.length = maxRowLen rows) ∧
      (∀ (ri : Nat) (row : List (List Run)), rows.get? ri = some row →
        ∀ ci : Nat, ci < maxRowLen rows →
          ∃ grow, grid.get? ri = some grow ∧
            grow.get? ci = some (row.getD ci []) ∧
            (row.length ≤ ci → grow.get? ci = some [])) ∧
      _render_table [] = none := by
  refine ⟨rows.map (fun row => (List.range (maxRowLen rows)).map (fun c => row.getD c [])),
    ?_, ?_, ?_, ?_, maxRowLen_mem h, ?_, rfl⟩
  · unfold _render_table
    rw [if_neg h]
  · simp
  · intro row hr
    rcases List.mem_map.mp hr with ⟨r, _, heq⟩
    rw [← heq]
    simp
  · intro r hr
    exact le_maxRowLen_foldl rows hr 0
  · intro ri row hrow ci hci
    refine ⟨(List.range (maxRowLen rows)).map (fun c => row.getD c []), ?_, ?_, ?_⟩
    · rw [List.get?_map, hrow]
      rfl
    · rw [List.get?_map, List.get?_range hci]
      rfl
    · intro hlen
      rw [List.get?_map, List.get?_range hci, Option.map_some',
        List.getD_eq_default _ _ hlen]

/-- Witness for C3 on a ragged two-row grid: the rendered table is 2×2 and
the short row is padded with an empty cell. -/
theorem C3_table_rectangular_witness :
    ∃ grid, _render_table [[[Run.brk], [Run.brk]], [[Run.brk]]] = some grid ∧
      grid.length = 2 ∧ ∀ row ∈ grid, row.length = 2 := by
  obtain ⟨grid, hsome, hlen, hrows, _⟩ :=
    C3_table_rectangular [[[Run.brk], [Run.brk]], [[Run.brk]]] (by simp)
  refine ⟨grid, hsome, by simpa using hlen, ?_⟩
  intro row hr
  exact (hrows row hr).trans rfl

/-- C8: rendering terminates — the loop index strictly increases on every
iteration (`_next_index`), the skip-to-close scans for headings, paragraphs
and tables always land strictly past the current token and never past the
end of the stream, and the renderer emits nothing once the token sequence
is exhausted. -/
theorem C8_render_terminates (tokens : List Token) (i : Nat) (end_type : String) :
    i < _next_index tokens i ∧
    i < _skip_to tokens i end_type ∧
    i < (_parse_table tokens i).2 ∧
    (i < tokens.length →
      _skip_to tokens i end_type ≤ tokens.length ∧
      (_parse_table tokens i).2 ≤ tokens.length) ∧
    (∀ (styles list_stack : List String) (in_list_item : Nat),
      tokens.length ≤ i →
      _render_tokens_from styles tokens i list_stack in_list_item = []) := by
  refine ⟨next_index_gt tokens i, skip_to_gt tokens i end_type,
    parse_table_snd_gt tokens i,
    fun hlt => ⟨skip_to_le tokens i end_type hlt, parse_table_snd_le tokens i hlt⟩, ?_⟩
  intro styles list_stack in_list_item hge
  conv_lhs => unfold _render_tokens_from
  split
  · rfl
  · rename_i token hget
    rcases List.get?_eq_some.mp hget with ⟨hlt, _⟩
    exact absurd hlt (Nat.not_lt.mpr hge)

/-- Witness for C8 at a one-token stream: the index advances past position 0
and rendering from the exhausted position 1 emits nothing. -/
theorem C8_render_terminates_witness :
    (0 : Nat) < _next_index [⟨"paragraph_open", "", "", []⟩] 0 ∧
    _render_tokens_from [] [⟨"paragraph_open", "", "", []⟩] 1 [] 0 = [] :=
  ⟨(C8_render_terminates [⟨"paragraph_open", "", "", []⟩] 0 "paragraph_close").1,
   (C8_render_terminates [⟨"paragraph_open", "", "", []⟩] 1 "paragraph_close").2.2.2.2
     [] [] 0 (by decide)⟩

/-- C1: a heading token emits exactly one paragraph whose style is
`_heading_style` of its level, and `_heading_style` maps level ≤ 1 to Title
when the document defines it (else Heading 1), level 2 to Heading 1, and
every level ≥ 3 to Heading 2. -/
theorem C1_heading_styles (styles : List String) (tokens : List Token)
    (i : Nat) (list_stack : List String) (in_list_item : Nat) (tok : Token)
    (hget : tokens.get? i = some tok) (htype : tok.type = "heading_open") :
    _render_tokens_from styles tokens i list_stack in_list_item =
      Block.para (_heading_style styles (heading_level tok.tag)) false
          (_inline_runs (inline_token_after tokens i)) ::
        _render_tokens_from styles tokens (_next_index tokens i)
          list_stack in_list_item ∧
    (∀ level : Nat, level ≤ 1 →
      _heading_style styles level =
        if _style_exists styles "Title" then "Title" else "Heading 1") ∧
    _heading_style styles 2 = "Heading 1" ∧
    (∀ level : Nat, 3 ≤ level → _heading_style styles level = "Heading 2") := by
  refine ⟨?_, ?_, ?_, ?_⟩
  · conv_lhs => unfold _render_tokens_from
    split
    · rename_i hnone
      rw [hnone] at hget
      cases hget
    · rename_i token hget2
      rw [hget2] at hget
      injection hget with htok
      subst htok
      rw [if_neg (by rw [htype]; decide), if_neg (by rw [htype]; decide),
        if_neg (by rw [htype]; decide), if_neg (by rw [htype]; decide),
        if_neg (by rw [htype]; decide), if_pos htype]
  · intro level hle
    unfold _heading_style
    rw [if_pos hle]
  · rfl
  · intro level h3
    unfold _heading_style
    rw [if_neg (by omega), if_neg (by omega)]

/-- The token stream of `### U`, as the tokenizer produces it. -/
def demoHeadingTokens : List Token :=
  [⟨"heading_open", "h3", "", []⟩,
   ⟨"inline", "", "U", [Inline.text "U"]⟩,
   ⟨"heading_close", "h3", "", []⟩]

/-- Witness for C1: on the `### U` stream with a Title style available, the
first emitted block is a paragraph styled by `_heading_style` at level 3,
which is Heading 2. -/
theorem C1_heading_styles_witness :
    _render_tokens_from ["Title"] demoHeadingTokens 0 [] 0 =
      Block.para (_heading_style ["Title"] (heading_level "h3")) false
          (_inline_runs (inline_token_after demoHeadingTokens 0)) ::
        _render_tokens_from ["Title"] demoHeadingTokens
          (_next_index demoHeadingTokens 0) [] 0 ∧
    _heading_style ["Title"] 3 = "Heading 2" :=
  ⟨(C1_heading_styles ["Title"] demoHeadingTokens 0 [] 0 _ rfl rfl).1,
   (C1_heading_styles ["Title"] demoHeadingTokens 0 [] 0 _ rfl rfl).2.2.2 3
     (by decide)⟩

/-! ### render_docx.py : placeholder replacement (C4) -/

/-- Source `"\x7b\x7bCONTENT\x7d\x7d"` — the content insertion placeholder. -/
def PLACEHOLDER : String := "\x7b\x7bCONTENT\x7d\x7d"

def CONTACT_PLACEHOLDER : String := "\x7b\x7bCONTACT\x7d\x7d"

def COMPANY_PLACEHOLDER : String := "\x7b\x7bCOMPANY\x7d\x7d"

def DATE_PLACEHOLDER : String := "\x7b\x7bDATE\x7d\x7d"

def startsWithList : List Char → List Char → Bool
  | [], _ => true
  | _ :: _, [] => false
  | p :: ps, c :: cs => p = c && startsWithList ps cs

def containsList (pat : List Char) : List Char → Bool
  | [] => startsWithList pat []
  | c :: cs => startsWithList pat (c :: cs) || containsList pat cs

/-- Python `sub in s`. -/
def pyContains (s sub : String) : Bool := containsList sub.toList s.toList

/-- The paragraph texts of a document: the body paragraphs
(`doc.paragraphs`) and, for every table cell, the cell's paragraphs
(`cell.paragraphs`). -/
structure Doc where
  paragraphs : List String
  tableCellParagraphs : List (List String)
deriving DecidableEq

/-- Source `company_name or "Unknown Company"` (Python `or`: the fallback is used
when resolution yielded `None` — or a falsy empty string). -/
def companyText : Option String → String
  | none => "Unknown Company"
  | some s => if s = "" then "Unknown Company" else s

/-- Source `_replace_text_in_paragraph` for the replacement dict
`COMPANY ↦ company, DATE ↦ today` (its Python insertion order): empty text
is returned unchanged; otherwise both placeholders are replaced everywhere
(the `key in updated` guard and the final `updated != text` write-back
check do not alter the resulting text). -/
def _replace_text_in_paragraph (company today text : String) : String :=
  if text = "" then text
  else (text.replace COMPANY_PLACEHOLDER company).replace DATE_PLACEHOLDER today

/-- The paragraph loop of `_apply_placeholder_replacements` on one
paragraph list: a paragraph containing the contact placeholder is removed
from the document; every other paragraph gets the company/date
substitution. -/
def processParagraphs (company today : String) : List String → List String
  | [] => []
  | p :: ps =>
    if pyContains p CONTACT_PLACEHOLDER then processParagraphs company today ps
    else _replace_text_in_paragraph company today p :: processParagraphs company today ps

/-- Source `_apply_placeholder_replacements`: resolve the company text, then
process the body paragraphs and every table cell's paragraphs. -/
def _apply_placeholder_replacements (company_name : Option String) (today : String)
    (doc : Doc) : Doc :=
  let company := companyText company_name
  { paragraphs := processParagraphs company today doc.paragraphs,
    tableCellParagraphs :=
      doc.tableCellParagraphs.map (processParagraphs company today) }

theorem processParagraphs_eq (company today : String) (ps : List String) :
    processParagraphs company today ps =
      (ps.filter (fun p => !(pyContains p CONTACT_PLACEHOLDER))).map
        (_replace_text_in_paragraph company today) := by
  induction ps with
  | nil => rfl
  | cons p ps ih =>
    simp only [processParagraphs]
    by_cases hc : pyContains p CONTACT_PLACEHOLDER
    · simp [hc, ih, List.filter_cons]
    · simp [hc, ih, List.filter_cons]

/-- C4: after placeholder processing, the body and every table cell consist
exactly of the paragraphs that did not contain the contact placeholder —
each with every company placeholder replaced by the resolved name (or the
`Unknown Company` fallback when resolution yielded nothing) and every date
placeholder replaced by the current date; paragraphs without the contact
placeholder are never removed. -/
theorem C4_placeholder_replacements (company_name : Option String)
    (today : String) (doc : Doc) :
    (_apply_placeholder_replacements company_name today doc).paragraphs =
      (doc.paragraphs.filter (fun p => !(pyContains p CONTACT_PLACEHOLDER))).map
        (_replace_text_in_paragraph (companyText company_name) today) ∧
    (_apply_placeholder_replacements company_name today doc).tableCellParagraphs =
      doc.tableCellParagraphs.map (fun cell =>
        (cell.filter (fun p => !(pyContains p CONTACT_PLACEHOLDER))).map
          (_replace_text_in_paragraph (companyText company_name) today)) ∧
    (∀ p ∈ doc.paragraphs, pyContains p CONTACT_PLACEHOLDER = false →
      _replace_text_in_paragraph (companyText company_name) today p ∈
        (_apply_placeholder_replacements company_name today doc).paragraphs) ∧
    (company_name = none → companyText company_name = "Unknown Company") ∧
    (∀ p : String, p ≠ "" →
      _replace_text_in_paragraph (companyText company_name) today p =
        (p.replace COMPANY_PLACEHOLDER (companyText company_name)).replace
          DATE_PLACEHOLDER today) := by
  refine ⟨?_, ?_, ?_, ?_, ?_⟩
  · exact processParagraphs_eq _ _ _
  · show doc.tableCellParagraphs.map (processParagraphs (companyText company_name) today) = _
    refine List.map_congr_left ?_
    intro cell _
    exact processParagraphs_eq _ _ _
  · intro p hp hc
    show _ ∈ processParagraphs (companyText company_name) today doc.paragraphs
    rw [processParagraphs_eq]
    exact List.mem_map_of_mem _ (List.mem_filter.mpr ⟨hp, by rw [hc]; rfl⟩)
  · intro h
    subst h
    rfl
  · intro p hp
    unfold _replace_text_in_paragraph
    rw [if_neg hp]

/-- Witness for C4 on a three-paragraph template: the contact paragraph is
removed and the other two receive the substitution. -/
theorem C4_placeholder_replacements_witness :
    (_apply_placeholder_replacements (some "Acme Corp") "2026-10-12"
        ⟨["x \x7b\x7bCOMPANY\x7d\x7d", "\x7b\x7bCONTACT\x7d\x7d", "\x7b\x7bDATE\x7d\x7d"],
         []⟩).paragraphs =
      [_replace_text_in_paragraph "Acme Corp" "2026-10-12" "x \x7b\x7bCOMPANY\x7d\x7d",
       _replace_text_in_paragraph "Acme Corp" "2026-10-12" "\x7b\x7bDATE\x7d\x7d"] := by
  rw [(C4_placeholder_replacements (some "Acme Corp") "2026-10-12"
    ⟨["x \x7b\x7bCOMPANY\x7d\x7d", "\x7b\x7bCONTACT\x7d\x7d", "\x7b\x7bDATE\x7d\x7d"],
     []⟩).1]
  rfl

/-! ### render_docx.py : company-name resolution (C5) -/

/-- A JSON value, as produced by `json.loads` (`num` stands in for both
numeric kinds; object fields are the parsed key/value pairs). -/
inductive Json where
  | null : Json
  | bool (b : Bool) : Json
  | num (n : Int) : Json
  | str (s : String) : Json
  | arr (elements : List Json) : Json
  | obj (fields : List (String × Json)) : Json

def Json.isObj : Json → Bool
  | .obj _ => true
  | _ => false

/-- The outcome of `path.exists()` + `path.read_text` + `json.loads` on one
candidate path: the file is missing, reading or parsing raises (any
exception is caught), or a JSON payload is produced. -/
inductive FileRead where
  | missing : FileRead
  | unreadable : FileRead
  | parsed (payload : Json) : FileRead

/-- Python `value.strip()`. -/
def pyStrip (s : String) : String :=
  String.mk (((s.toList.dropWhile pyIsSpace).reverse.dropWhile pyIsSpace).reverse)

/-- The key loop of `_resolve_company_name` on a parsed dict: the first of
the given keys whose value is a string with a non-empty strip wins, and its
stripped value is returned. -/
def first_company_key (fields : List (String × Json)) : List String → Option String
  | [] => none
  | key :: keys =>
    match fields.lookup key with
    | some (Json.str v) =>
        if pyStrip v ≠ "" then some (pyStrip v) else first_company_key fields keys
    | _ => first_company_key fields keys

/-- Reading one candidate path: a missing file, an unreadable/unparsable
file, or a non-object payload yields nothing (silently skipped); an object
yields its first recognized non-empty company-name value. -/
def lookup_lead_record (fs : List String → FileRead) (path : List String) :
    Option String :=
  match fs path with
  | .missing => none
  | .unreadable => none
  | .parsed payload =>
    match payload with
    | Json.obj fields =>
        first_company_key fields ["company_name", "client", "company"]
    | _ => none

/-- The candidate list of `_resolve_company_name`: for each directory — the
markdown file's directory followed by its ancestors in upward order —
`lead_input.json` then `_dossier/lead_input.json`. -/
def candidate_paths (dirs : List (List String)) : List (List String) :=
  match dirs with
  | [] => []
  | d :: rest =>
    (d ++ ["lead_input.json"]) :: (d ++ ["_dossier", "lead_input.json"]) ::
      candidate_paths rest

/-- The candidate loop of `_resolve_company_name` with its `seen` set;
the source adds every visited path to `seen`, but since a successful lookup
returns immediately, recording the failures alone is equivalent. -/
def resolve_loop (fs : List String → FileRead) (seen : List (List String)) :
    List (List String) → Option String
  | [] => none
  | path :: rest =>
    if path ∈ seen then resolve_loop fs seen rest
    else
      match lookup_lead_record fs path with
      | some name => some name
      | none => resolve_loop fs (path :: seen) rest

/-- Source `_resolve_company_name`, over the directory chain
`[md_file.parent, *md_file.parents]` of the markdown file (whose duplicate
first entry the `seen` set makes harmless). -/
def _resolve_company_name (fs : List String → FileRead)
    (dirs : List (List String)) : Option String :=
  resolve_loop fs [] (candidate_paths dirs)

theorem resolve_loop_eq_findSome (fs : List String → FileRead)
    (seen : List (List String)) (l : List (List String))
    (hseen : ∀ p ∈ seen, lookup_lead_record fs p = none) :
    resolve_loop fs seen l = l.findSome? (lookup_lead_record fs) := by
  induction l generalizing seen with
  | nil => rfl
  | cons path rest ih =>
    simp only [resolve_loop]
    by_cases hmem : path ∈ seen
    · rw [if_pos hmem, ih seen hseen, List.findSome?_cons, hseen path hmem]
    · rw [if_neg hmem]
      cases hl : lookup_lead_record fs path with
      | some name => rw [List.findSome?_cons, hl]
      | none =>
        rw [List.findSome?_cons, hl]
        refine ih (path :: seen) ?_
        intro p hp
        rcases List.mem_cons.mp hp with h | h
        · rw [h]
          exact hl
        · exact hseen p h

/-- C5: company-name resolution is total (it cannot raise) and equals the
first success over the ordered candidate list; a missing, unreadable or
non-object candidate contributes nothing; on an object record the
`company_name` key takes precedence and a winning value is returned
stripped; when every candidate fails, the caller-visible result is the
`Unknown Company` fallback text. -/
theorem C5_resolve_company_name (fs : List String → FileRead)
    (dirs : List (List String)) :
    _resolve_company_name fs dirs =
      (candidate_paths dirs).findSome? (lookup_lead_record fs) ∧
    (∀ path, fs path = FileRead.missing → lookup_lead_record fs path = none) ∧
    (∀ path, fs path = FileRead.unreadable → lookup_lead_record fs path = none) ∧
    (∀ path payload, fs path = FileRead.parsed payload → payload.isObj = false →
      lookup_lead_record fs path = none) ∧
    (∀ path fields v, fs path = FileRead.parsed (Json.obj fields) →
      fields.lookup "company_name" = some (Json.str v) → pyStrip v ≠ "" →
      lookup_lead_record fs path = some (pyStrip v)) ∧
    ((∀ p ∈ candidate_paths dirs, lookup_lead_record fs p = none) →
      companyText (_resolve_company_name fs dirs) = "Unknown Company") := by
  have hmain : _resolve_company_name fs dirs =
      (candidate_paths dirs).findSome? (lookup_lead_record fs) :=
    resolve_loop_eq_findSome fs [] (candidate_paths dirs) (by intro p hp; cases hp)
  refine ⟨hmain, ?_, ?_, ?_, ?_, ?_⟩
  · intro path h
    unfold lookup_lead_record
    rw [h]
  · intro path h
    unfold lookup_lead_record
    rw [h]
  · intro path payload h hobj
    unfold lookup_lead_record
    rw [h]
    cases payload <;> simp_all [Json.isObj]
  · intro path fields v h hkey hv
    unfold lookup_lead_record
    rw [h]
    show first_company_key fields ["company_name", "client", "company"] = some (pyStrip v)
    unfold first_company_key
    rw [hkey]
    simp only [hv, if_true]
    rw [if_pos hv]
  · intro hall
    rw [hmain, List.findSome?_eq_none.mpr hall]
    rfl

/-- Witness for C5: with no lead record anywhere on the directory chain,
resolution yields nothing and the fallback text is used. -/
theorem C5_resolve_company_name_witness :
    companyText (_resolve_company_name (fun _ => FileRead.missing) [[]]) =
      "Unknown Company" :=
  (C5_resolve_company_name (fun _ => FileRead.missing) [[]]).2.2.2.2.2
    (fun p _ => rfl)

/-! ### render_docx.py : style profile (C9) -/

/-- Source `Pt(x)`: a length of `x` points in EMU (`python-docx` multiplies by
12700); every profile value is a whole number of points. -/
def Pt (points : Nat) : Nat := points * 12700

/-- The optional attributes `_apply_style_profile` touches on one style:
`font.size`, `font.bold`, and the paragraph format's
`space_before` / `space_after` / `keep_with_next` (`none` = unset). -/
structure StyleAttrs where
  size : Option Nat
  bold : Option Bool
  space_before : Option Nat
  space_after : Option Nat
  keep_with_next : Option Bool
deriving DecidableEq

/-- One row of `_apply_style_profile`'s `profiles` table (point values;
`none` = the profile does not provide the attribute). -/
structure Profile where
  font_size_pt : Option Nat
  bold : Option Bool
  spacing_before_pt : Option Nat
  spacing_after_pt : Option Nat
  keep_with_next : Option Bool
deriving DecidableEq

/-- The `profiles` table of `_apply_style_profile`. -/
def _style_profiles : List (String × Profile) :=
  [("Title", ⟨some 18, some true, some 24, some 12, some true⟩),
   ("Heading 1", ⟨some 16, some true, some 24, some 0, some true⟩),
   ("Heading 2", ⟨some 14, some true, some 10, some 0, some true⟩),
   ("Heading 3", ⟨none, some true, some 10, some 0, some true⟩),
   ("Normal", ⟨none, none, some 9, some 9, none⟩)]

/-- One attribute of the loop body: set the baseline value only when the
profile provides one and the style leaves the attribute unset. -/
def fillField {α : Type} (profile_value : Option α) (attr_value : Option α) : Option α :=
  match profile_value, attr_value with
  | some v, none => some v
  | _, _ => attr_value

/-- The per-style body of `_apply_style_profile`'s loop. Each of the five
in-place conditional assignments of the source reads and writes a single
distinct attribute, so their sequence equals this per-field record. -/
def applyProfileAttrs (profile : Profile) (a : StyleAttrs) : StyleAttrs :=
  { size := fillField (profile.font_size_pt.map Pt) a.size,
    bold := fillField profile.bold a.bold,
    space_before := fillField (profile.spacing_before_pt.map Pt) a.space_before,
    space_after := fillField (profile.spacing_after_pt.map Pt) a.space_after,
    keep_with_next := fillField profile.keep_with_next a.keep_with_next }

/-- A document's style collection: names to attributes (`none` = the style
is absent and `doc.styles[name]` raises `KeyError`). -/
def Styles : Type := String → Option StyleAttrs

/-- One iteration of `_apply_style_profile`'s loop: an absent style is
skipped (`except KeyError: continue`); a present one is updated in place. -/
def applyOneProfile (s : Styles) (entry : String × Profile) : Styles :=
  match s entry.1 with
  | none => s
  | some a =>
    fun name => if name = entry.1 then some (applyProfileAttrs entry.2 a) else s name

/-- Source `_apply_style_profile`: run the loop over the whole profile table. -/
def _apply_style_profile (s : Styles) : Styles :=
  _style_profiles.foldl applyOneProfile s

theorem applyOneProfile_other (s : Styles) (entry : String × Profile)
    (name : String) (h : name ≠ entry.1) : applyOneProfile s entry name = s name := by
  unfold applyOneProfile
  cases s entry.1 with
  | none => rfl
  | some a =>
    dsimp only
    rw [if_neg h]

theorem applyOneProfile_none (s : Styles) (entry : String × Profile)
    (name : String) (h : s name = none) : applyOneProfile s entry name = none := by
  unfold applyOneProfile
  cases hs : s entry.1 with
  | none => exact h
  | some a =>
    dsimp only
    by_cases hn : name = entry.1
    · rw [hn] at h
      rw [h] at hs
      cases hs
    · rw [if_neg hn]
      exact h

theorem foldl_profiles_none (ps : List (String × Profile)) (s : Styles)
    (name : String) (h : s name = none) :
    ps.foldl applyOneProfile s name = none := by
  induction ps generalizing s with
  | nil => exact h
  | cons e rest ih => exact ih _ (applyOneProfile_none s e name h)

theorem foldl_profiles_other (ps : List (String × Profile)) (s : Styles)
    (name : String) (h : ∀ e ∈ ps, name ≠ e.1) :
    ps.foldl applyOneProfile s name = s name := by
  induction ps generalizing s with
  | nil => rfl
  | cons e rest ih =>
    rw [List.foldl_cons, ih _ (fun e' he' => h e' (List.mem_cons_of_mem _ he'))]
    exact applyOneProfile_other s e name (h e (List.mem_cons_self _ _))

theorem fillField_some {α : Type} (pv : Option α) (v : α) :
    fillField pv (some v) = some v := by
  cases pv <;> rfl

theorem fillField_none {α : Type} (pv : Option α) :
    fillField pv none = pv := by
  cases pv <;> rfl

theorem foldl_profiles_distinct (ps : List (String × Profile))
    (name : String) (p : Profile) (a : StyleAttrs) :
    ∀ s : Styles, (ps.map Prod.fst).Nodup → (name, p) ∈ ps → s name = some a →
      ps.foldl applyOneProfile s name = some (applyProfileAttrs p a) := by
  induction ps with
  | nil =>
    intro s _ hmem _
    cases hmem
  | cons e rest ih =>
    intro s hnodup hmem ha
    rw [List.map_cons, List.nodup_cons] at hnodup
    rcases List.mem_cons.mp hmem with hhead | htail
    · subst hhead
      have hother : ∀ e' ∈ rest, name ≠ e'.1 := by
        intro e' he' heq
        refine hnodup.1 ?_
        show name ∈ List.map Prod.fst rest
        rw [heq]
        exact List.mem_map_of_mem Prod.fst he'
      rw [List.foldl_cons, foldl_profiles_other rest _ name hother]
      unfold applyOneProfile
      dsimp only
      rw [ha]
      dsimp only
      rw [if_pos rfl]
    · have hne : name ≠ e.1 := by
        intro heq
        refine hnodup.1 ?_
        rw [← heq]
        exact List.mem_map_of_mem Prod.fst htail
      rw [List.foldl_cons]
      refine ih _ hnodup.2 htail ?_
      rw [applyOneProfile_other s e name hne]
      exact ha

/-- C9: applying the style profile only fills unset attributes — a style
absent from the document is skipped, styles outside the profile table are
untouched, a profiled style present in the document becomes exactly its
per-attribute merge with its profile row, and that merge keeps every
already-set value while giving each unset attribute the profile's baseline
value. -/
theorem C9_style_profile_frame (s : Styles) :
    (∀ name, s name = none → _apply_style_profile s name = none) ∧
    (∀ name, (∀ e ∈ _style_profiles, name ≠ e.1) →
      _apply_style_profile s name = s name) ∧
    (∀ name p a, (name, p) ∈ _style_profiles → s name = some a →
      _apply_style_profile s name = some (applyProfileAttrs p a)) ∧
    (∀ (p : Profile) (a : StyleAttrs),
      (∀ v, a.size = some v → (applyProfileAttrs p a).size = some v) ∧
      (∀ v, a.bold = some v → (applyProfileAttrs p a).bold = some v) ∧
      (∀ v, a.space_before = some v → (applyProfileAttrs p a).space_before = some v) ∧
      (∀ v, a.space_after = some v → (applyProfileAttrs p a).space_after = some v) ∧
      (∀ v, a.keep_with_next = some v →
        (applyProfileAttrs p a).keep_with_next = some v)) ∧
    (∀ (p : Profile) (a : StyleAttrs),
      (a.size = none → (applyProfileAttrs p a).size = p.font_size_pt.map Pt) ∧
      (a.bold = none → (applyProfileAttrs p a).bold = p.bold) ∧
      (a.space_before = none →
        (applyProfileAttrs p a).space_before = p.spacing_before_pt.map Pt) ∧
      (a.space_after = none →
        (applyProfileAttrs p a).space_after = p.spacing_after_pt.map Pt) ∧
      (a.keep_with_next = none →
        (applyProfileAttrs p a).keep_with_next = p.keep_with_next)) := by
  refine ⟨?_, ?_, ?_, ?_, ?_⟩
  · intro name h
    exact foldl_profiles_none _ s name h
  · intro name h
    exact foldl_profiles_other _ s name h
  · intro name p a hmem ha
    exact foldl_profiles_distinct _ name p a s (by decide) hmem ha
  · intro p a
    refine ⟨?_, ?_, ?_, ?_, ?_⟩ <;>
      · intro v hv
        show fillField _ _ = some v
        rw [hv]
        exact fillField_some _ _
  · intro p a
    refine ⟨?_, ?_, ?_, ?_, ?_⟩ <;>
      · intro hv
        show fillField _ _ = _
        rw [hv]
        exact fillField_none _

/-- A one-style document for the C9 witness: Normal is present with only a
font size set. -/
def c9DemoStyles : Styles :=
  fun name =>
    if name = "Normal" then some ⟨some 1, none, none, none, none⟩ else none

/-- Witness for C9: applying the profile to the demo document merges
Normal's profile row into its attributes (the set size survives, the unset
spacings are filled). -/
theorem C9_style_profile_frame_witness :
    _apply_style_profile c9DemoStyles "Normal" =
      some (applyProfileAttrs ⟨none, none, some 9, some 9, none⟩
        ⟨some 1, none, none, none, none⟩) :=
  (C9_style_profile_frame c9DemoStyles).2.2.1 "Normal"
    ⟨none, none, some 9, some 9, none⟩ ⟨some 1, none, none, none, none⟩
    (by decide) rfl

/-! ### render_docx.py : the document writer's reusable slot (C10) -/

/-- The state of `_DocWriter`, with document elements (paragraphs, tables)
identified by creation order; `next_id` is the next fresh element. -/
structure WriterState where
  insert_after : Option Nat
  reuse_first : Option Nat
  next_id : Nat
deriving DecidableEq

/-- Source `_DocWriter.add_paragraph`: consume the reusable slot when present,
else create a fresh paragraph (appended to the document or inserted after
the cursor); the new/reused paragraph becomes the cursor. Returns the new
state and the paragraph written to. -/
def _DocWriter.add_paragraph (s : WriterState) : WriterState × Nat :=
  match s.reuse_first with
  | some p => ({ s with reuse_first := none, insert_after := some p }, p)
  | none =>
    ({ s with insert_after := some s.next_id, next_id := s.next_id + 1 }, s.next_id)

/-- Source `_DocWriter.add_table`: create the table (`next_id`) and a fresh empty
paragraph right after it (`next_id + 1`); that trailing paragraph becomes
both the cursor and the new reusable slot
(`self.reuse_first = paragraph_after`). Returns the new state and the
table. -/
def _DocWriter.add_table (s : WriterState) : WriterState × Nat :=
  ({ insert_after := some (s.next_id + 1), reuse_first := some (s.next_id + 1),
     next_id := s.next_id + 2 }, s.next_id)

/-- Source `_init_document`'s writer construction for a loaded template, given the
text of the first paragraph containing the content placeholder (`none` when
no such paragraph exists, which also covers the blank-document path);
paragraph 0 stands for the placeholder paragraph. Mirrors
`_find_placeholder_paragraph`, `_remove_placeholder_text`, and the
`reuse_first` choice on the stripped text. -/
def _init_document_writer (placeholder_paragraph : Option String) : WriterState :=
  match placeholder_paragraph with
  | some text =>
    if pyStrip (text.replace PLACEHOLDER "") = "" then
      { insert_after := some 0, reuse_first := some 0, next_id := 1 }
    else
      { insert_after := some 0, reuse_first := none, next_id := 1 }
  | none => { insert_after := none, reuse_first := none, next_id := 1 }

/-- Counterexample to C10 as stated: from a writer state with no reusable
slot, emitting a table re-creates a reusable slot (the empty paragraph
inserted after the table) — so the slot is not present only at writer
construction. -/
theorem C10_reuse_slot_counterexample :
    (_DocWriter.add_table ⟨some 0, none, 1⟩).1.reuse_first = some 2 := rfl

/-- C10 (amended): the reusable slot is non-null at writer construction
exactly when stripping the content placeholder left a blank carrier
paragraph; emitting a paragraph always consumes it (the slot is the
paragraph written to, and afterwards no slot remains); and emitting a table
re-creates the slot as the empty trailing paragraph inserted after the
table. -/
theorem C10_reuse_slot_amended (text : String) (s : WriterState) :
    ((_init_document_writer (some text)).reuse_first ≠ none ↔
      pyStrip (text.replace PLACEHOLDER "") = "") ∧
    (_init_document_writer none).reuse_first = none ∧
    (_DocWriter.add_paragraph s).1.reuse_first = none ∧
    (∀ p, s.reuse_first = some p → (_DocWriter.add_paragraph s).2 = p) ∧
    (_DocWriter.add_table s).1.reuse_first = some (s.next_id + 1) := by
  refine ⟨?_, rfl, ?_, ?_, rfl⟩
  · unfold _init_document_writer
    dsimp only
    by_cases h : pyStrip (text.replace PLACEHOLDER "") = ""
    · rw [if_pos h]
      simp [h]
    · rw [if_neg h]
      simp [h]
  · unfold _DocWriter.add_paragraph
    cases s.reuse_first <;> rfl
  · intro p hp
    unfold _DocWriter.add_paragraph
    rw [hp]

/-- Witness for C10 (amended) at a concrete writer state holding a slot:
the first emitted paragraph is the slot itself. -/
theorem C10_reuse_slot_amended_witness :
    (_DocWriter.add_paragraph ⟨some 0, some 0, 1⟩).2 = 0 :=
  (C10_reuse_slot_amended "" ⟨some 0, some 0, 1⟩).2.2.2.1 0 rfl

end PrimerOps
